import Mathlib

/-!
GitNexus core: verified shallow embedding.

This file embeds, in Lean 4, the parts of the GitNexus repository that the
verified properties below talk about:

* the worker pool (`createWorkerPool` / `dispatch` / `terminate` in the
  worker-pool module): chunking of the input list, per-chunk dispatch,
  `Promise.all` result assembly, progress aggregation, and the state after
  `terminate`;
* the LLM graph tools (`src/gitnexus/src/core/llm/tools.ts`): the `search`
  tool fallback ladder and the `blastRadius` tool depth loop with its
  shared seen-set deduplication;
* the knowledge-graph edge model (`RelationshipType` / `GraphRelationship`
  from the web type definitions).

JavaScript asynchrony is modelled by making the eventual per-worker
outcomes explicit inputs (a worker either resolves with a value or rejects
with an error); `Promise.all` then becomes a pure fold over those outcomes.
Machine arithmetic is exact here: all quantities involved are small
non-negative integers (array lengths, chunk sizes, depths), so `Nat`
models them faithfully.
-/

namespace WorkerPool

/-- The expression `Math.ceil(n / size)` on non-negative integers, as computed by
`dispatch` for `chunkSize`.  For `size = 0` (which the source pool never
produces: `poolSize ?? Math.max(1, os.cpus().length - 1)` is at least 1
whenever the default is used) Lean evaluates this to 0. -/
def chunkSize (n size : Nat) : Nat := (n + size - 1) / size

/-- The chunking loop of `dispatch`:
`for (let i = 0; i < items.length; i += chunkSize) chunks.push(items.slice(i, i + chunkSize))`.
Each pass takes the next `cs` items.  A zero `cs` would not terminate in
JavaScript; here it returns `[]` (the guard is never hit by `dispatch`,
whose `cs` is at least 1 for a non-empty input and positive pool size). -/
def chunksOf : Nat → List α → List (List α)
  | _, [] => []
  | 0, _ :: _ => []
  | cs + 1, x :: xs =>
      (x :: xs).take (cs + 1) :: chunksOf (cs + 1) ((x :: xs).drop (cs + 1))
termination_by _ l => l.length
decreasing_by
  simp only [List.drop_succ_cons, List.length_cons, List.length_drop]
  omega

/-- The chunks `dispatch` builds for a given pool size. -/
def chunks (size : Nat) (items : List α) : List (List α) :=
  chunksOf (chunkSize items.length size) items

/-- The worker assignment of `dispatch`: `chunks.map((chunk, i) => workers[i] ...)`
pairs chunk `i` with worker `i`. -/
def assignments (size : Nat) (items : List α) : List (Nat × List α) :=
  (chunks size items).enum

/-- Success-path `dispatch`: the empty input short-circuits to `[]`;
otherwise each worker applies its (pure) chunk function and `Promise.all`
returns the per-chunk results in chunk order. -/
def dispatch (f : List α → β) (size : Nat) (items : List α) : List β :=
  if items.isEmpty then [] else (chunks size items).map f

/-- The `Promise.all` assembly over settled outcomes: resolves with the list of values
when every promise resolved, rejects with the error of a rejected promise
otherwise (list order stands in for rejection order). -/
def promiseAll : List (Except ε α) → Except ε (List α)
  | [] => .ok []
  | .ok a :: rest => (promiseAll rest).map (a :: ·)
  | .error e :: _ => .error e

/-- Dispatch when workers may fail: each chunk yields an outcome and
`Promise.all` assembles them. -/
def dispatchE (f : List α → Except ε β) (size : Nat) (items : List α) :
    Except ε (List β) :=
  if items.isEmpty then .ok [] else promiseAll ((chunks size items).map f)

/-- Pool state: the captured `size` constant and the mutable `workers`
array (only its length matters to the model, so workers are `Unit`). -/
structure Pool where
  size : Nat
  workers : List Unit

/-- The pool built by `createWorkerPool` with an explicit pool size: spawns `size` workers. -/
def mkPool (size : Nat) : Pool := { size := size, workers := List.replicate size () }

/-- The `terminate` operation: terminates every worker and sets `workers.length = 0`;
the captured `size` constant is unchanged. -/
def terminate (p : Pool) : Pool := { p with workers := [] }

/-- The message of the `TypeError` raised when `dispatch` reads
`workers[i]` on an empty workers array and calls `.on` on `undefined`. -/
def workerUndefinedMsg : String := "TypeError: worker is undefined"

/-- Dispatch against the pool state: the empty input returns `[]`
immediately; otherwise chunk `i` goes to `workers[i]` — if that worker is
missing the promise executor throws (modelled as a rejected outcome),
else the worker computes `f` on its chunk. -/
def dispatchP (p : Pool) (f : List α → β) (items : List α) :
    Except String (List β) :=
  if items.isEmpty then .ok []
  else promiseAll ((assignments p.size items).map (fun x =>
    match p.workers.get? x.1 with
    | none => .error workerUndefinedMsg
    | some _ => .ok (f x.2)))

/-- The partition/assignment contract that the chunking of `dispatch`
actually satisfies (stated over the model, proved below): the chunks
concatenate back to the input in order, there are exactly
`⌈N / ⌈N / P⌉⌉` of them — never more than `P` — every chunk except
possibly the last is full, and chunk `i` is sent to worker `i`. -/
def chunkingContract (items : List α) (P : Nat) : Prop :=
  (chunks P items).flatten = items ∧
  (chunks P items).length =
    (items.length + chunkSize items.length P - 1) / chunkSize items.length P ∧
  (chunks P items).length ≤ P ∧
  (∀ c ∈ (chunks P items).dropLast, c.length = chunkSize items.length P) ∧
  (∀ c ∈ chunks P items, c ≠ [] ∧ c.length ≤ chunkSize items.length P) ∧
  (assignments P items).map Prod.fst = List.range (chunks P items).length

end WorkerPool

namespace Progress

/-- The progress handler mutation `workerProgress[i] = msg.filesProcessed`.
Indices past the end leave the state unchanged (they cannot occur: `i`
ranges over chunk indices and the array is allocated with one slot per
chunk). -/
def update (st : List Nat) (i v : Nat) : List Nat := st.set i v

/-- The cumulative total `workerProgress.reduce((a, b) => a + b, 0)` that is
passed to `onProgress`. -/
def reported (st : List Nat) : Nat := st.sum

/-- The per-worker progress array after a sequence of progress messages
`(workerIndex, filesProcessed)`. -/
def runEvents (st : List Nat) : List (Nat × Nat) → List Nat
  | [] => st
  | e :: es => runEvents (update st e.1 e.2) es

/-- The totals delivered to `onProgress`, one per progress message, in
message order. -/
def deliveredTotals (st : List Nat) : List (Nat × Nat) → List Nat
  | [] => []
  | e :: es => reported (update st e.1 e.2) :: deliveredTotals (update st e.1 e.2) es

/-- The latest count worker `j` has sent in `events` (`d` when it has not
sent any). -/
def lastSent (events : List (Nat × Nat)) (d : Nat) (j : Nat) : Nat :=
  match events with
  | [] => d
  | e :: es => lastSent es (if e.1 = j then e.2 else d) j

end Progress

namespace SearchTool

/-- The three shapes of string the `search` tool returns: the
"Search is not available" signal, the "No code found matching" message,
and a non-empty result listing.  Every branch of the tool returns one of
these as a normal value; nothing is thrown (the one `try` around the
hybrid call swallows its error). -/
inductive Reply (R : Type) where
  | unavailable
  | noMatch
  | found (results : List R)

/-- Which ranked list feeds the reply (`searchResults` after step 1 of the
tool): BM25 ready → hybrid, falling back on a hybrid error to semantic
when the embedder is ready and to the empty list otherwise; BM25 not
ready → semantic when the embedder is ready; else the early
"unavailable" return (`none`). -/
def selectResults (bm25Ready embedReady : Bool) (hybrid : Except Unit (List R))
    (semantic : List R) : Option (List R) :=
  if bm25Ready then
    match hybrid with
    | .ok l => some l
    | .error _ => if embedReady then some semantic else some []
  else if embedReady then some semantic
  else none

/-- The reply of the `search` tool: unavailable when no ranking source is
ready, the no-match message when the selected list is empty, a result
listing otherwise. -/
def searchReply (bm25Ready embedReady : Bool) (hybrid : Except Unit (List R))
    (semantic : List R) : Reply R :=
  match selectResults bm25Ready embedReady hybrid semantic with
  | none => .unavailable
  | some [] => .noMatch
  | some (r :: rs) => .found (r :: rs)

end SearchTool

namespace BlastRadius

/-- One row of a per-depth traversal query result (id and name; the other
columns play no role in the control flow). -/
structure Row where
  id : String
  name : String
deriving DecidableEq, Repr

/-- The computed cap `const depth = Math.min(maxDepth ?? 3, 10)`. -/
def depthCap (maxDepth : Option Nat) : Nat := min (maxDepth.getD 3) 10

/-- The depths the query loop actually visits:
`for (let d = 1; d <= Math.min(depth, 3); d++)`; the query built for
depth `d` matches paths of exactly `d` hops (`[:CodeRelation*d]`). -/
def depthsRun (maxDepth : Option Nat) : List Nat :=
  List.range' 1 (min (depthCap maxDepth) 3)

/-- The inner `results.forEach` of the combining loop: keep a row only if
its id is truthy (non-empty) and not in the seen set, adding kept ids to
the seen set.  Returns the rows kept at this depth and the grown seen
set. -/
def collectDepth (seen : List String) : List Row → List Row × List String
  | [] => ([], seen)
  | r :: rs =>
    if r.id ≠ "" ∧ r.id ∉ seen then
      ((collectDepth (r.id :: seen) rs).1.cons r, (collectDepth (r.id :: seen) rs).2)
    else collectDepth seen rs

/-- The outer `depthResults.forEach`, threading the shared seen set
through the depths in order. -/
def combineAux (seen : List String) : List (List Row) → List (List Row)
  | [] => []
  | rs :: rest =>
    (collectDepth seen rs).1 :: combineAux (collectDepth seen rs).2 rest

/-- The `byDepth` map as built by the tool: per-depth lists of newly seen rows,
deduplicated through a seen set shared across depths. -/
def combineByDepth (depthResults : List (List Row)) : List (List Row) :=
  combineAux [] depthResults

/-- A row of the target-lookup query. -/
structure Target where
  id : String
deriving DecidableEq

/-- The shapes of string `blastRadius` returns: a caught lookup error, the
"Could not find" message, the "No dependencies found" message, or the
tiered report.  All are ordinary return values. -/
inductive BlastReply where
  | findError (msg : String)
  | notFound
  | noDependencies
  | report (byDepth : List (List Row)) (total : Nat)

/-- The control flow of the `blastRadius` tool after the depth queries
settle (each depth query already falls back to `[]` on error via
`.catch(() => [])`): lookup error → error message; no target row →
not-found message; zero total affected → no-dependencies message;
otherwise the tiered report with the deduplicated per-depth lists. -/
def blastRadius (findResult : Except String (List Target))
    (depthResults : List (List Row)) : BlastReply :=
  match findResult with
  | .error e => .findError e
  | .ok [] => .notFound
  | .ok (_ :: _) =>
    if ((combineByDepth depthResults).flatten).length = 0 then .noDependencies
    else .report (combineByDepth depthResults)
      ((combineByDepth depthResults).flatten).length

end BlastRadius

namespace Graph

/-- The `RelationshipType` union exactly as exported by the web type definitions:
ten union members. -/
inductive RelationshipType where
  | CONTAINS
  | CALLS
  | INHERITS
  | OVERRIDES
  | IMPORTS
  | USES
  | DEFINES
  | DECORATES
  | IMPLEMENTS
  | EXTENDS
deriving DecidableEq, Fintype, Repr

/-- The string literal of each union member. -/
def relTypeName : RelationshipType → String
  | .CONTAINS => "CONTAINS"
  | .CALLS => "CALLS"
  | .INHERITS => "INHERITS"
  | .OVERRIDES => "OVERRIDES"
  | .IMPORTS => "IMPORTS"
  | .USES => "USES"
  | .DEFINES => "DEFINES"
  | .DECORATES => "DECORATES"
  | .IMPLEMENTS => "IMPLEMENTS"
  | .EXTENDS => "EXTENDS"

/-- The `GraphRelationship` record as exported: a typed directed edge between node
ids. -/
structure GraphRelationship where
  id : String
  sourceId : String
  targetId : String
  type : RelationshipType

/-- The eight edge-type names the specification claims are the exact set
(stated from the words of the spec, for comparison with the source
union). -/
def specClaimedEdgeTypes : List String :=
  ["CONTAINS", "DEFINES", "IMPORTS", "CALLS", "EXTENDS", "IMPLEMENTS",
   "MEMBER_OF", "STEP_IN_PROCESS"]

/-- The ten edge-type names of the source union, in declaration order. -/
def sourceEdgeTypes : List String :=
  ["CONTAINS", "CALLS", "INHERITS", "OVERRIDES", "IMPORTS", "USES",
   "DEFINES", "DECORATES", "IMPLEMENTS", "EXTENDS"]

end Graph

namespace WorkerPool

/-! ### Chunking lemmas -/

theorem chunksOf_mem_ne_nil {cs : Nat} {l : List α} :
    ∀ c ∈ chunksOf cs l, c ≠ [] ∧ c.length ≤ cs := by
  induction cs, l using chunksOf.induct with
  | case1 => simp [chunksOf]
  | case2 => simp [chunksOf]
  | case3 cs x xs ih =>
    intro c hc
    rw [chunksOf] at hc
    rcases List.mem_cons.mp hc with hc1 | hc1
    · subst hc1
      refine ⟨by simp, ?_⟩
      simp
    · exact ih c hc1

theorem chunksOf_flatten {cs : Nat} (hcs : cs ≠ 0) (l : List α) :
    (chunksOf cs l).flatten = l := by
  induction cs, l using chunksOf.induct with
  | case1 => simp [chunksOf]
  | case2 => exact absurd rfl hcs
  | case3 cs x xs ih =>
    rw [chunksOf]
    simp only [List.flatten_cons]
    rw [ih (Nat.succ_ne_zero cs)]
    exact List.take_append_drop _ _

theorem chunksOf_length {cs : Nat} (hcs : cs ≠ 0) (l : List α) :
    (chunksOf cs l).length = (l.length + cs - 1) / cs := by
  induction cs, l using chunksOf.induct with
  | case1 =>
    rw [chunksOf]
    symm
    simp only [List.length_nil, Nat.zero_add]
    exact Nat.div_eq_of_lt (by omega)
  | case2 => exact absurd rfl hcs
  | case3 cs x xs ih =>
    rw [chunksOf]
    simp only [List.length_cons, List.length_drop] at ih ⊢
    rw [ih (Nat.succ_ne_zero cs)]
    rcases le_or_lt xs.length cs with h | h
    · have h0 : xs.length + 1 - (cs + 1) + (cs + 1) - 1 = cs := by omega
      rw [h0, Nat.div_eq_of_lt (by omega)]
      simp only [Nat.zero_add]
      symm
      exact Nat.div_eq_of_lt_le (by omega) (by omega)
    · have h0 : xs.length + 1 - (cs + 1) + (cs + 1) - 1 = xs.length := by omega
      have h1 : xs.length + 1 + (cs + 1) - 1 = xs.length + (cs + 1) := by omega
      rw [h0, h1, Nat.add_div_right _ (Nat.succ_pos cs)]

theorem chunksOf_dropLast_full {cs : Nat} {l : List α} :
    ∀ c ∈ (chunksOf cs l).dropLast, c.length = cs := by
  induction cs, l using chunksOf.induct with
  | case1 => simp [chunksOf]
  | case2 => simp [chunksOf]
  | case3 cs x xs ih =>
    intro c hc
    rw [chunksOf] at hc
    by_cases hrest : chunksOf (cs + 1) ((x :: xs).drop (cs + 1)) = []
    · rw [hrest] at hc
      simp at hc
    · rw [List.dropLast_cons_of_ne_nil hrest] at hc
      rcases List.mem_cons.mp hc with hc1 | hc1
      · subst hc1
        have hlen : cs + 1 ≤ (x :: xs).length := by
          by_contra hcon
          push_neg at hcon
          have hnil : (x :: xs).drop (cs + 1) = [] :=
            List.drop_eq_nil_of_le (by omega)
          rw [hnil] at hrest
          exact hrest (by rw [chunksOf])
        simp only [List.length_cons] at hlen
        simp only [List.length_take, List.length_cons]
        omega
      · exact ih c hc1

theorem chunk_count_le_pool {n P : Nat} (hn : 1 ≤ n) (hP : 1 ≤ P) :
    (n + chunkSize n P - 1) / chunkSize n P ≤ P := by
  set cs := chunkSize n P with hcs
  have hq := Nat.div_add_mod (n + P - 1) P
  have hr : (n + P - 1) % P < P := Nat.mod_lt _ (by omega)
  have hcs1 : 1 ≤ cs := by
    rw [hcs]
    unfold chunkSize
    exact Nat.le_div_iff_mul_le (by omega) |>.mpr (by omega)
  have hmul : n ≤ P * cs := by
    rw [hcs]
    unfold chunkSize
    omega
  have hstep : (P + 1) * cs = P * cs + cs := by ring
  have hlt0 : n + cs - 1 < (P + 1) * cs := by omega
  have hlt : (n + cs - 1) / cs < P + 1 :=
    (Nat.div_lt_iff_lt_mul (by omega)).mpr hlt0
  omega

end WorkerPool

namespace WorkerPool

theorem chunkSize_pos {n P : Nat} (hn : 1 ≤ n) (hP : 1 ≤ P) :
    chunkSize n P ≠ 0 := by
  have h1 : 1 ≤ (n + P - 1) / P :=
    (Nat.one_le_div_iff (by omega)).mpr (by omega)
  unfold chunkSize
  omega

theorem chunks_ne_nil {items : List α} {P : Nat} (hne : items ≠ [])
    (hP : 1 ≤ P) : chunks P items ≠ [] := by
  intro h
  have hcs : chunkSize items.length P ≠ 0 :=
    chunkSize_pos (List.length_pos.mpr hne) hP
  have hfl := chunksOf_flatten hcs items
  rw [show chunksOf (chunkSize items.length P) items = chunks P items from rfl,
    h] at hfl
  simp at hfl
  exact hne hfl

theorem dispatch_map_flatten (g : α → β) (P : Nat) (items : List α)
    (hP : 1 ≤ P) :
    (dispatch (List.map g) P items).flatten = items.map g := by
  rcases items with _ | ⟨x, xs⟩
  · rfl
  · have hcs : chunkSize (x :: xs).length P ≠ 0 := chunkSize_pos (by simp) hP
    unfold dispatch
    simp only [List.isEmpty_cons, Bool.false_eq_true, if_false]
    rw [show (chunks P (x :: xs)).map (List.map g)
        = (chunksOf (chunkSize (x :: xs).length P) (x :: xs)).map (List.map g) from rfl]
    rw [← List.map_flatten, chunksOf_flatten hcs]

/-- C1 (amended): for a non-empty input of `N` items and a pool of size
`P ≥ 1`, `dispatch` splits the input into exactly `⌈N / ⌈N / P⌉⌉`
contiguous chunks — at most `P`, but fewer when `⌈N / P⌉` does not divide
the input so evenly (e.g. 4 items on 3 workers give 2 chunks) — with every
chunk but possibly the last of full size `⌈N / P⌉`, the last non-empty and
no longer, and chunk `i` dispatched to worker `i`, so each of the first
`⌈N / ⌈N / P⌉⌉` workers receives exactly one chunk and the remaining
workers receive none. -/
theorem dispatch_partitions_amended (items : List α) (P : Nat)
    (hne : items ≠ []) (hP : 1 ≤ P) : chunkingContract items P := by
  have hn : 1 ≤ items.length := List.length_pos.mpr hne
  have hcs : chunkSize items.length P ≠ 0 := chunkSize_pos hn hP
  refine ⟨chunksOf_flatten hcs items, chunksOf_length hcs items, ?_,
    chunksOf_dropLast_full, chunksOf_mem_ne_nil, ?_⟩
  · rw [show chunks P items = chunksOf (chunkSize items.length P) items from rfl,
      chunksOf_length hcs]
    exact chunk_count_le_pool hn hP
  · rw [assignments]
    exact List.enum_map_fst _

/-- C1 counterexample: 4 items on a pool of size 3 are split into 2 chunks
of size 2, not into 3 chunks — `dispatch` does not always produce exactly
`P` chunks. -/
theorem dispatch_partitions_counterexample :
    chunks 3 [0, 1, 2, 3] = [[0, 1], [2, 3]] ∧
    (chunks 3 [0, 1, 2, 3]).length ≠ 3 := by
  constructor
  · simp [chunks, chunkSize, chunksOf]
  · simp [chunks, chunkSize, chunksOf]

theorem dispatch_partitions_witness :
    ([0, 1, 2, 3, 4] : List Nat) ≠ [] ∧ 1 ≤ 2 ∧
    chunkingContract [0, 1, 2, 3, 4] 2 :=
  ⟨by simp, by decide,
    dispatch_partitions_amended [0, 1, 2, 3, 4] 2 (by simp) (by decide)⟩

/-- C5 (amended): with every worker mapping the same pure per-item
function over its chunk, the concatenation of the per-chunk results of
`dispatch` with pool size 1 equals the one with pool size 4,
element for element (both equal the map over the whole input).  The raw
return value of `dispatch` differs in shape between the two pool sizes
(one result per chunk), which is what the counterexample records. -/
theorem parallelism_amended (g : α → β) (items : List α) :
    (dispatch (List.map g) 1 items).flatten
      = (dispatch (List.map g) 4 items).flatten := by
  rw [dispatch_map_flatten g 1 items (by decide),
    dispatch_map_flatten g 4 items (by decide)]

/-- C5 counterexample: with the identity as the per-chunk worker function,
`dispatch` at pool size 1 returns one chunk result and at pool size 4 two,
so the returned lists differ element for element. -/
theorem parallelism_counterexample :
    dispatch (fun c => c) 1 [0, 1] = [[0, 1]] ∧
    dispatch (fun c => c) 4 [0, 1] = [[0], [1]] ∧
    dispatch (fun c => c) 1 [0, 1] ≠ dispatch (fun c => c) 4 [0, 1] := by
  refine ⟨?_, ?_, ?_⟩ <;> simp [dispatch, chunks, chunkSize, chunksOf]

end WorkerPool

namespace WorkerPool

theorem promiseAll_ne_ok {xs : List (Except ε α)} {e : ε}
    (hx : Except.error e ∈ xs) : ∀ l, promiseAll xs ≠ .ok l := by
  induction xs with
  | nil => simp at hx
  | cons x rest ih =>
    intro l h
    cases x with
    | error e2 => exact Except.noConfusion h
    | ok a =>
      rw [promiseAll] at h
      cases hr : promiseAll rest with
      | error e3 => rw [hr] at h; exact Except.noConfusion h
      | ok l2 =>
        have hx2 : Except.error e ∈ rest := by
          rcases List.mem_cons.mp hx with h1 | h1
          · exact absurd h1 (by simp)
          · exact h1
        exact ih hx2 l2 hr

theorem promiseAll_error_of_mem {xs : List (Except ε α)} {e : ε}
    (hx : Except.error e ∈ xs)
    (huniq : ∀ e2 : ε, Except.error e2 ∈ xs → e2 = e) :
    promiseAll xs = .error e := by
  induction xs with
  | nil => simp at hx
  | cons x rest ih =>
    cases x with
    | error e2 =>
      have he : e2 = e := huniq e2 (by simp)
      subst he
      rfl
    | ok a =>
      have hx2 : Except.error e ∈ rest := by
        rcases List.mem_cons.mp hx with h1 | h1
        · exact absurd h1 (by simp)
        · exact h1
      rw [promiseAll, ih hx2 (fun e2 h2 => huniq e2 (List.mem_cons_of_mem _ h2))]
      rfl

/-- C6: if any worker of an in-flight dispatch fails, `Promise.all` makes
the whole dispatch fail — it can never resolve with a value, so no partial
results from the other workers reach the caller — and when the failing
worker is the only one that fails, the dispatch fails with exactly that
worker error. -/
theorem worker_failure_confirmed (f : List α → Except ε β) (P : Nat)
    (items chunk : List α) (e : ε)
    (hmem : chunk ∈ chunks P items) (hf : f chunk = .error e) :
    (∀ l, dispatchE f P items ≠ .ok l) ∧
    ((∀ c ∈ chunks P items, ∀ e2, f c = Except.error e2 → e2 = e) →
      dispatchE f P items = .error e) := by
  have hne : items.isEmpty = false := by
    cases items with
    | nil => simp [chunks, chunksOf] at hmem
    | cons x xs => rfl
  have hmemmap : Except.error e ∈ (chunks P items).map f :=
    List.mem_map.mpr ⟨chunk, hmem, hf⟩
  constructor
  · intro l
    unfold dispatchE
    rw [hne]
    simp only [Bool.false_eq_true, if_false]
    exact promiseAll_ne_ok hmemmap l
  · intro huniq
    unfold dispatchE
    rw [hne]
    simp only [Bool.false_eq_true, if_false]
    refine promiseAll_error_of_mem hmemmap ?_
    intro e2 h2
    rcases List.mem_map.mp h2 with ⟨c, hc, hfc⟩
    exact huniq c hc e2 hfc

theorem worker_failure_witness :
    (∀ l, dispatchE (fun c => if c = [0, 1] then Except.error "boom" else Except.ok c)
        2 [0, 1, 2, 3] ≠ Except.ok l) ∧
    dispatchE (fun c => if c = [0, 1] then Except.error "boom" else Except.ok c)
        2 [0, 1, 2, 3] = Except.error "boom" := by
  have hch : chunks 2 [0, 1, 2, 3] = [[0, 1], [2, 3]] := by
    simp [chunks, chunkSize, chunksOf]
  have h := worker_failure_confirmed
    (fun c => if c = [0, 1] then Except.error "boom" else Except.ok c)
    2 [0, 1, 2, 3] [0, 1] "boom" (by rw [hch]; simp) (by simp)
  refine ⟨h.1, h.2 ?_⟩
  intro c hc e2 h2
  rw [hch] at hc
  rcases List.mem_cons.mp hc with h1 | h1
  · subst h1
    simp at h2
    exact h2.symm
  · simp at h1
    subst h1
    simp at h2

/-- C8 (amended): after `terminate` has completed, `dispatch` on any
NON-EMPTY input fails: the workers array is empty, so the first promise
executor reads `workers[0]`, gets `undefined`, and throws.  (The empty
input still succeeds, which is what the counterexample records.) -/
theorem dispatch_after_terminate_amended (p : Pool) (f : List α → β)
    (items : List α) (hP : 1 ≤ p.size) (hne : items ≠ []) :
    dispatchP (terminate p) f items = .error workerUndefinedMsg := by
  obtain ⟨c0, rest, hc0⟩ :=
    List.exists_cons_of_ne_nil
      (@chunks_ne_nil _ items (terminate p).size hne hP)
  have hisEmpty : items.isEmpty = false := by
    cases items with
    | nil => exact absurd rfl hne
    | cons x xs => rfl
  unfold dispatchP
  rw [hisEmpty]
  simp only [Bool.false_eq_true, if_false]
  rw [assignments, hc0]
  rfl

/-- C8 counterexample: dispatching the empty list after termination still
resolves successfully with `[]` — the claim fails for the empty input. -/
theorem dispatch_after_terminate_counterexample :
    dispatchP (terminate (mkPool 2)) (fun c => c) ([] : List Nat) = .ok [] := rfl

theorem dispatch_after_terminate_witness :
    1 ≤ (mkPool 2).size ∧ ([5] : List Nat) ≠ [] ∧
    dispatchP (terminate (mkPool 2)) (fun c => c) [5]
      = .error workerUndefinedMsg :=
  ⟨by decide, by simp,
    dispatch_after_terminate_amended (mkPool 2) (fun c => c) [5]
      (by decide) (by simp)⟩

end WorkerPool

namespace Progress

theorem update_getD {st : List Nat} {i : Nat} (v j : Nat) (hi : i < st.length) :
    (update st i v).getD j 0 = if i = j then v else st.getD j 0 := by
  unfold update
  rw [List.getD_eq_getElem?_getD, List.getD_eq_getElem?_getD, List.getElem?_set]
  by_cases h : i = j
  · subst h
    simp [hi]
  · simp [h]

theorem runEvents_length (st : List Nat) (es : List (Nat × Nat)) :
    (runEvents st es).length = st.length := by
  induction es generalizing st with
  | nil => rfl
  | cons e es ih =>
    rw [runEvents, ih]
    simp [update]

theorem runEvents_append (st : List Nat) (es : List (Nat × Nat)) (e : Nat × Nat) :
    runEvents st (es ++ [e]) = update (runEvents st es) e.1 e.2 := by
  induction es generalizing st with
  | nil => rfl
  | cons e2 es ih => rw [List.cons_append, runEvents, runEvents, ih]

theorem deliveredTotals_append (st : List Nat) (es : List (Nat × Nat))
    (e : Nat × Nat) :
    deliveredTotals st (es ++ [e])
      = deliveredTotals st es
        ++ [reported (update (runEvents st es) e.1 e.2)] := by
  induction es generalizing st with
  | nil => rfl
  | cons e2 es ih => simp [deliveredTotals, runEvents, ih]

theorem runEvents_getD (es : List (Nat × Nat)) : ∀ (st : List Nat) (j : Nat),
    (∀ e ∈ es, e.1 < st.length) →
    (runEvents st es).getD j 0 = lastSent es (st.getD j 0) j := by
  induction es with
  | nil =>
    intro st j hw
    rfl
  | cons e es ih =>
    intro st j hw
    rw [runEvents, lastSent]
    rw [ih (update st e.1 e.2) j
      (fun e2 h2 => by simpa [update] using hw e2 (List.mem_cons_of_mem _ h2))]
    congr 1
    rw [update_getD e.2 j (hw e (by simp))]

theorem sum_eq_range_getD (l : List Nat) :
    ((List.range l.length).map (fun j => l.getD j 0)).sum = l.sum := by
  induction l with
  | nil => rfl
  | cons a l ih =>
    rw [List.length_cons, List.range_succ_eq_map, List.map_cons, List.map_map]
    simp only [Function.comp_def, Nat.succ_eq_add_one, List.getD_cons_succ,
      List.getD_cons_zero, List.sum_cons]
    rw [ih]

theorem set_getD_self (st : List Nat) (i : Nat) (hi : i < st.length) :
    st.set i (st.getD i 0) = st := by
  induction st generalizing i with
  | nil => simp at hi
  | cons a l ih =>
    cases i with
    | zero => simp
    | succ n =>
      simp only [List.getD_cons_succ, List.set_cons_succ]
      rw [ih n (by simpa using hi)]

/-- C7: during a dispatch, every cumulative total handed to `onProgress`
is the sum of the latest per-worker counts (the last count each worker
sent, or its initial 0), and when worker `i` resends its current count
unchanged the newly reported total equals the previous cumulative total,
so the reported count never regresses on a redundant update. -/
theorem progress_aggregation_confirmed (st : List Nat)
    (events : List (Nat × Nat)) (i v : Nat)
    (hw : ∀ e ∈ events, e.1 < st.length) (hi : i < st.length) :
    (deliveredTotals st (events ++ [(i, v)])).getLastD 0 =
      ((List.range st.length).map
        (fun j => lastSent (events ++ [(i, v)]) (st.getD j 0) j)).sum ∧
    (v = lastSent events (st.getD i 0) i →
      (deliveredTotals st (events ++ [(i, v)])).getLastD 0
        = reported (runEvents st events)) := by
  have hlastD : (deliveredTotals st (events ++ [(i, v)])).getLastD 0
      = reported (update (runEvents st events) i v) := by
    rw [deliveredTotals_append, List.getLastD_eq_getLast?, List.getLast?_concat]
    rfl
  have hw2 : ∀ e ∈ events ++ [(i, v)], e.1 < st.length := by
    intro e he
    rcases List.mem_append.mp he with h | h
    · exact hw e h
    · simp at h
      subst h
      exact hi
  constructor
  · rw [hlastD, ← runEvents_append st events (i, v), reported,
      ← sum_eq_range_getD (runEvents st (events ++ [(i, v)])),
      runEvents_length]
    refine congrArg List.sum (List.map_congr_left ?_)
    intro j hj
    exact runEvents_getD (events ++ [(i, v)]) st j hw2
  · intro hred
    have hv : v = (runEvents st events).getD i 0 := by
      rw [runEvents_getD events st i hw]
      exact hred
    rw [hlastD, hv, reported, reported, update,
      set_getD_self (runEvents st events) i (by rw [runEvents_length]; exact hi)]

theorem progress_aggregation_witness :
    (∀ e ∈ [(0, 2), (1, 3)], e.1 < 2) ∧ 0 < 2 ∧
    ((2 : Nat) = lastSent [(0, 2), (1, 3)] (([0, 0] : List Nat).getD 0 0) 0) ∧
    (deliveredTotals [0, 0] ([(0, 2), (1, 3)] ++ [(0, 2)])).getLastD 0
      = reported (runEvents [0, 0] [(0, 2), (1, 3)]) :=
  ⟨by decide, by decide, by decide,
    (progress_aggregation_confirmed [0, 0] [(0, 2), (1, 3)] 0 2
      (by decide) (by decide)).2 (by decide)⟩

end Progress

namespace BlastRadius

/-- C2 (code bug): the tool computes `depth = Math.min(maxDepth ?? 3, 10)`
and its own schema documents `maxDepth` as "default: 3, max: 10", but the
query loop iterates only up to `Math.min(depth, 3)`: at requested depth 5
only depths 1, 2 and 3 are traversed, not 1..min(5, 10). -/
theorem blast_depth_cap_bug :
    depthCap (some 5) = 5 ∧
    depthsRun (some 5) = [1, 2, 3] ∧
    depthsRun (some 5) ≠ List.range' 1 (min 5 10) := by decide

theorem combineAux_flatten_nil (rss : List (List Row)) :
    ∀ seen, (∀ rs ∈ rss, rs = []) → (combineAux seen rss).flatten = [] := by
  induction rss with
  | nil =>
    intro seen h
    rfl
  | cons rs rest ih =>
    intro seen h
    have h1 : rs = [] := h rs (by simp)
    subst h1
    rw [combineAux]
    simp only [collectDepth, List.flatten_cons, List.nil_append]
    exact ih seen (fun rs2 h2 => h rs2 (List.mem_cons_of_mem _ h2))

/-- C9: when the target lookup matches no node the tool returns the
distinct "could not find" message, and when a target is found but every
depth query returns no rows (no edges in the requested direction) it
returns the distinct "no dependencies found" message.  Both are ordinary
return values — the model is a total function into `BlastReply` — and
each is distinct from the other and from a success report. -/
theorem blast_empty_results_confirmed (findResult : Except String (List Target))
    (depthResults : List (List Row)) (ts : List Target) :
    (findResult = .ok [] → blastRadius findResult depthResults = .notFound) ∧
    (findResult = .ok ts → ts ≠ [] → (∀ rs ∈ depthResults, rs = []) →
      blastRadius findResult depthResults = .noDependencies) ∧
    BlastReply.notFound ≠ BlastReply.noDependencies ∧
    (∀ bd t, BlastReply.notFound ≠ BlastReply.report bd t) ∧
    (∀ bd t, BlastReply.noDependencies ≠ BlastReply.report bd t) := by
  refine ⟨?_, ?_, fun h => BlastReply.noConfusion h,
    fun bd t h => BlastReply.noConfusion h,
    fun bd t h => BlastReply.noConfusion h⟩
  · intro h
    subst h
    rfl
  · intro h1 h2 h3
    subst h1
    cases ts with
    | nil => exact absurd rfl h2
    | cons t ts2 =>
      have h4 : (combineByDepth depthResults).flatten = [] :=
        combineAux_flatten_nil depthResults [] h3
      simp [blastRadius, h4]

theorem blast_empty_results_witness :
    blastRadius (.ok []) [[Row.mk "a" "n"]] = BlastReply.notFound ∧
    blastRadius (.ok [Target.mk "t"]) [[], []] = BlastReply.noDependencies :=
  ⟨(blast_empty_results_confirmed (.ok []) [[Row.mk "a" "n"]] []).1 rfl,
   (blast_empty_results_confirmed (.ok [Target.mk "t"]) [[], []]
      [Target.mk "t"]).2.1 rfl (by simp) (by decide)⟩

end BlastRadius

namespace SearchTool

/-- C4: with the BM25 index not yet built and the embedder ready, the
search tool ranks by semantic search alone — the selected result list is
exactly the semantic list, surfaced as a found reply when non-empty — and
with neither BM25 nor the embedder ready it returns the
"search is not available" reply as an ordinary return value, not a thrown
error (the model is a total function into `Reply`). -/
theorem search_fallback_confirmed {R : Type} (hybrid : Except Unit (List R))
    (semantic : List R) :
    selectResults false true hybrid semantic = some semantic ∧
    (semantic ≠ [] → searchReply false true hybrid semantic = .found semantic) ∧
    searchReply false false hybrid semantic = .unavailable := by
  refine ⟨rfl, ?_, rfl⟩
  intro h
  cases semantic with
  | nil => exact absurd rfl h
  | cons r rs => rfl

theorem search_fallback_witness :
    ([7] : List Nat) ≠ [] ∧
    searchReply false true (Except.error ()) [7] = SearchTool.Reply.found [7] :=
  ⟨by simp, (search_fallback_confirmed (Except.error ()) [7]).2.1 (by simp)⟩

/-- C10: with BM25 ready, the hybrid call failing, and the embedder not
ready, the search tool returns the "no code found matching" reply for the
query — not the "search is not available" signal and not a thrown error
(the hybrid error is swallowed by the surrounding catch and the reply is
an ordinary return value of the total model function). -/
theorem hybrid_failure_noMatch_confirmed {R : Type} (semantic : List R) :
    searchReply true false (Except.error ()) semantic = .noMatch ∧
    (Reply.noMatch : Reply R) ≠ .unavailable ∧
    (Reply.noMatch : Reply R) ≠ .found semantic := by
  exact ⟨rfl, fun h => Reply.noConfusion h, fun h => Reply.noConfusion h⟩

end SearchTool

namespace Graph

/-- C3 counterexample: the source `RelationshipType` union admits
`INHERITS` (and `USES`), which are not among the eight values the claim
lists, while the claimed `MEMBER_OF` is in the claimed set without being a
member of the union — so the edge-type set is not exactly the claimed
eight. -/
theorem relationship_types_counterexample :
    relTypeName (GraphRelationship.mk "r1" "a" "b"
        RelationshipType.INHERITS).type
      ∉ specClaimedEdgeTypes ∧
    "MEMBER_OF" ∈ specClaimedEdgeTypes ∧
    relTypeName RelationshipType.USES ∉ specClaimedEdgeTypes := by decide

/-- C3 (amended): every edge type of the source union is one of exactly
the TEN values CONTAINS, CALLS, INHERITS, OVERRIDES, IMPORTS, USES,
DEFINES, DECORATES, IMPLEMENTS, EXTENDS, and every one of those ten is a
realizable edge type. -/
theorem relationship_types_amended :
    (∀ r : GraphRelationship, relTypeName r.type ∈ sourceEdgeTypes) ∧
    (∀ s, s ∈ sourceEdgeTypes → ∃ t : RelationshipType, relTypeName t = s) := by
  constructor
  · intro r
    have h : ∀ t : RelationshipType, relTypeName t ∈ sourceEdgeTypes := by decide
    exact h r.type
  · decide

theorem relationship_types_witness :
    ∃ t : RelationshipType, relTypeName t = "USES" :=
  relationship_types_amended.2 "USES" (by decide)

end Graph
